import Mathlib

/-!
Verification of the PMap core of the Atomic-Distributed-NoSqlDB-Engine
repository (a persistent, timestamped, last-write-wins key-value store).

The embedding below translates `core/pmap/pmap.go` and
`hashing/hashing.go` from the repository's source.  The leaf modules
`store`, `hashmap` and `syncChecksum` are not present under `src/`; the
definitions for them are modelled from the specification (sections 3,
4.1, 4.2 and 4.3 of spec.md) and are marked as such in their doc
comments.

Modelling conventions:
* machine integers are `Nat` with explicit `% 2 ^ w` where Go truncates;
  Go's signed `int64` timestamp comparisons (`time.Unix(0,n)` ordering)
  are interpreted through `toI64`;
* byte slices are `List Nat` (every entry < 256 by construction);
* a Go `panic` (slice bounds), a Go `error` return and a Go infinite
  loop are distinguished outcomes of the `Res` type;
* the open-addressing probe loops of Get/Set/Del/CAS are all instances
  of one template (spec 4.4 calls it the shared probing template); the
  shared function `probeLoop` is that template, and each operation keeps
  its own hash computation and per-bucket actions exactly as in the
  source.  A probe that Go would run forever (no empty bucket, no
  match) is `Res.hang`: after `capacity` steps the linear probe has
  visited every bucket and repeats.
-/

set_option maxRecDepth 40000

namespace PmapCore

/-- Byte strings: each element is a byte value (< 256 by construction). -/
abbrev Bytes := List Nat

/-- FNV1a64, translated from `hashing/hashing.go`. -/
def FNV1a64 (b : Bytes) : Nat :=
  b.foldl (fun h c => ((h ^^^ c) * 1099511628211) % 2 ^ 64) 14695981039346656037

/-- Go `uint32` truncation. -/
def u32 (n : Nat) : Nat := n % 2 ^ 32

/-- Two's-complement reading of a `uint64` bit pattern as Go `int64`
(`time.Unix(0, int64(u))` comparisons order by this value). -/
def toI64 (n : Nat) : Int :=
  if n < 2 ^ 63 then (n : Int) else (n : Int) - 2 ^ 64

/-- Little-endian read of `count` bytes starting at `pos` (0 beyond the end;
inside the store all reads are within the mapped region). -/
def readLE (mem : Bytes) : Nat → Nat → Nat
  | _, 0 => 0
  | pos, count + 1 => mem.getD pos 0 + 256 * readLE mem (pos + 1) count

/-- Little-endian bytes of a value, `count` bytes wide. -/
def leBytes : Nat → Nat → Bytes
  | 0, _ => []
  | count + 1, v => v % 256 :: leBytes count (v / 256)

/-- Update one position of a list (out of range: unchanged). -/
def listSet {α : Type} : List α → Nat → α → List α
  | [], _, _ => []
  | _ :: t, 0, b => b :: t
  | a :: t, n + 1, b => a :: listSet t n b

/-- Overwrite bytes of `mem` at `pos` with `payload`. -/
def writeBytes (mem : Bytes) (pos : Nat) (payload : Bytes) : Bytes :=
  mem.take pos ++ payload ++ mem.drop (pos + payload.length)

/-- Outcome of running a Go operation: a normal return, an `error`
return, a panic (slice bounds), or an infinite loop. -/
inductive Res (α : Type) where
  | ok (a : α)
  | er (msg : String)
  | crash
  | hang
deriving DecidableEq

/-- Sequencing of outcomes (state after an error/panic/loop is not
observable through the API and is dropped). -/
def Res.bind {α β : Type} (r : Res α) (f : α → Res β) : Res β :=
  match r with
  | .ok a => f a
  | .er m => .er m
  | .crash => .crash
  | .hang => .hang

/-!
## Store (modelled)

Modelled from the spec: `store.go` is not under `src/`.  Spec 3 and 4.1:
an append-only log inside a fixed-size byte region.  A record is
`keyLen(4, LE) | valLen(4, LE) | key | value | totalLen(4, LE)` with 12
bytes of overhead; the `totalLen` field is the trailing tail that
`prev` reads at `[offset - 4, offset)` (spec 4.1 and 9, "the totalLen
tail").  `key`/`val` are zero-copy views into the region, so a Go
re-slice like `value[:8]` on a stored value reads through the slice
capacity past `valLen`; `valTsBits` models exactly that read.
-/

structure Store where
  mem : Bytes
  size : Nat
  length : Nat
  deleted : Nat
deriving DecidableEq

/-- Modelled from the spec: decode the `keyLen` header field. -/
def Store.keyLen (st : Store) (off : Nat) : Nat := readLE st.mem off 4

/-- Modelled from the spec: decode the `valLen` header field. -/
def Store.valLen (st : Store) (off : Nat) : Nat := readLE st.mem (off + 4) 4

/-- Modelled from the spec: view of the record's key (the `keyLen` bytes
starting at `off + 8`, read positionwise from the mapped region). -/
def Store.key (st : Store) (off : Nat) : Bytes :=
  (List.range (st.keyLen off)).map (fun i => st.mem.getD (off + 8 + i) 0)

/-- Byte position where a record's value starts. -/
def Store.valOff (st : Store) (off : Nat) : Nat := off + 8 + st.keyLen off

/-- Modelled from the spec: view of the record's value (`valLen` bytes). -/
def Store.val (st : Store) (off : Nat) : Bytes :=
  (List.range (st.valLen off)).map (fun i => st.mem.getD (st.valOff off + i) 0)

/-- The 8 bytes at the value position, as read by Go `value[:8]` on a
store-backed slice: the re-slice extends to the slice capacity, so it is
well defined even for a tombstone's empty value view. -/
def Store.valTsBits (st : Store) (off : Nat) : Nat := readLE st.mem (st.valOff off) 8

/-- Modelled from the spec: the trailing `totalLen` field of the record. -/
def Store.totalLen (st : Store) (off : Nat) : Nat :=
  readLE st.mem (off + 8 + st.keyLen off + st.valLen off) 4

/-- Modelled from the spec: offset of the preceding record, by reading the
4-byte `totalLen` tail ending at `off`; negative sentinel at offset 0. -/
def Store.prev (st : Store) (off : Nat) : Int :=
  if off = 0 then -1
  else (off : Int) - 12 - (readLE st.mem (off - 4) 4 : Int)

/-- Modelled from the spec: append a record at `length`; `StoreFull` if it
would exceed the fixed size.  Returns the record's start offset. -/
def Store.put (st : Store) (key value : Bytes) : Except String (Nat × Store) :=
  if st.size < st.length + 12 + key.length + value.length then
    .error "StoreFull"
  else
    let frame := leBytes 4 key.length ++ leBytes 4 value.length ++ key ++ value
      ++ leBytes 4 (key.length + value.length)
    .ok (st.length,
      { st with mem := writeBytes st.mem st.length frame,
                length := st.length + 12 + key.length + value.length })

/-!
## HashMap (modelled)

Modelled from the spec: `hashmap.go` is not under `src/`.  Spec 3 and
4.2: an open-addressed table of `(hash32, storeOffset32)` buckets,
power-of-two capacity, linear probing, two reserved hash sentinels, and
a remap that shifts a raw hash colliding with a sentinel.  The spec's
example sentinel values (0xFFFFFFFF / 0xFFFFFFFE) and shift (+2 with
wrap) are used; the initial log2 size and the size limit are modelled
constants (the spec does not fix them).
-/

def emptyBucket : Nat := 4294967295

def deletedBucket : Nat := 4294967294

/-- Modelled from the spec: sentinel-avoiding remap of a raw 32-bit hash. -/
def hashReMap (h : Nat) : Nat :=
  if h = emptyBucket ∨ h = deletedBucket then (h + 2) % 2 ^ 32 else h

def defaultHashMapInitialLog2Size : Nat := 4

def defaultHashMapSizeLimit : Nat := 20

structure HashMap where
  log2size : Nat
  sizeLimit : Nat
  buckets : List (Nat × Nat)
  numStoredKeys : Nat
  numKeysToExpand : Nat
deriving DecidableEq

def HashMap.capacity (hm : HashMap) : Nat := 2 ^ hm.log2size

def HashMap.sizeMask (hm : HashMap) : Nat := hm.capacity - 1

def HashMap.getHash (hm : HashMap) (i : Nat) : Nat :=
  (hm.buckets.getD i (emptyBucket, 0)).1

def HashMap.getStoreIndex (hm : HashMap) (i : Nat) : Nat :=
  (hm.buckets.getD i (emptyBucket, 0)).2

def HashMap.setHash (hm : HashMap) (i h : Nat) : HashMap :=
  { hm with buckets := listSet hm.buckets i (h, hm.getStoreIndex i) }

def HashMap.setStoreIndex (hm : HashMap) (i si : Nat) : HashMap :=
  { hm with buckets := listSet hm.buckets i (hm.getHash i, si) }

/-- Modelled from the spec: a fresh table, every bucket empty, expansion
threshold about 0.75 of the capacity. -/
def newHashMap (log2 limit : Nat) : HashMap :=
  { log2size := log2, sizeLimit := limit,
    buckets := List.replicate (2 ^ log2) (emptyBucket, 0),
    numStoredKeys := 0, numKeysToExpand := 3 * 2 ^ log2 / 4 }

/-- First empty slot reachable by linear probing (used by expansion). -/
def freeSlot (bks : List (Nat × Nat)) (mask : Nat) : Nat → Nat → Option Nat
  | 0, _ => none
  | fuel + 1, idx =>
    if (bks.getD idx (emptyBucket, 0)).1 = emptyBucket then some idx
    else freeSlot bks mask fuel ((idx + 1) &&& mask)

/-- Modelled from the spec: double the capacity, re-inserting every
non-empty, non-deleted bucket; `TableTooLarge` past the size limit. -/
def HashMap.expand (hm : HashMap) : Res Unit × HashMap :=
  if hm.sizeLimit < hm.log2size + 1 then (.er "TableTooLarge", hm)
  else
    let cap2 := 2 ^ (hm.log2size + 1)
    let mask2 := cap2 - 1
    let step := fun (acc : Option (List (Nat × Nat))) (b : Nat × Nat) =>
      match acc with
      | none => none
      | some bks =>
        if b.1 = emptyBucket ∨ b.1 = deletedBucket then some bks
        else
          match freeSlot bks mask2 cap2 (b.1 &&& mask2) with
          | none => none
          | some j => some (listSet bks j b)
    match hm.buckets.foldl step (some (List.replicate cap2 (emptyBucket, 0))) with
    | none => (.hang, hm)
    | some bks =>
      (.ok (),
       { log2size := hm.log2size + 1, sizeLimit := hm.sizeLimit, buckets := bks,
         numStoredKeys := hm.numStoredKeys, numKeysToExpand := 3 * cap2 / 4 })

/-!
## SyncChecksum (modelled)

Modelled from the spec: `syncChecksum` is not under `src/`.  Spec 4.3:
an XOR aggregate over `h64(k) ^ tsbits(v)` terms; `sum` and `sub` are
the same self-inverse fold, and the timestamp argument (for an optional
interval feature) is ignored by the minimal implementation the spec
endorses, so the state is one `uint64`.
-/

def checksumSum (c t : Nat) : Nat := c ^^^ t

def checksumSub (c t : Nat) : Nat := c ^^^ t

/-!
## PMap (translated from `core/pmap/pmap.go`)
-/

structure PMap where
  hm : HashMap
  st : Store
  checksum : Nat
deriving DecidableEq

/-- `New(path, size)` (path only selects file vs anonymous memory). -/
def New (size : Nat) : PMap :=
  { hm := newHashMap defaultHashMapInitialLog2Size defaultHashMapSizeLimit,
    st := { mem := List.replicate size 0, size := size, length := 0, deleted := 0 },
    checksum := 0 }

def Checksum (c : PMap) : Nat := c.checksum

def Used (c : PMap) : Nat := c.st.length

def Deleted (c : PMap) : Nat := c.st.deleted

/-- Result of one run of the shared probing template. -/
inductive ProbeRes where
  | empty (idx : Nat)
  | found (idx off : Nat)
  | nohit
deriving DecidableEq

/-- The shared probing template of Get/Set/Del/CAS (spec 4.4): advance
linearly from `idx`; stop at an empty bucket or at a full key match on a
hash match.  A bucket whose hash matches but whose key differs, and a
`deletedBucket`, are probed past, exactly as in each source loop. -/
def probeLoop (c : PMap) (h : Nat) (key : Bytes) : Nat → Nat → ProbeRes
  | 0, _ => .nohit
  | fuel + 1, idx =>
    let sh := c.hm.getHash idx
    if sh = emptyBucket then .empty idx
    else if sh = h ∧ c.st.key (c.hm.getStoreIndex idx) = key then
      .found idx (c.hm.getStoreIndex idx)
    else probeLoop c h key fuel ((idx + 1) &&& c.hm.sizeMask)

/-- One full probe: fuel `capacity` makes `.nohit` coincide with the Go
loop running forever (after `capacity` steps it revisits buckets). -/
def probe (c : PMap) (h : Nat) (key : Bytes) : ProbeRes :=
  probeLoop c h key c.hm.capacity (h &&& c.hm.sizeMask)

/-- The space check at the top of Set/CAS/restorePair. -/
def expandIfNeeded (hm : HashMap) : Res Unit × HashMap :=
  if hm.numKeysToExpand ≤ hm.numStoredKeys then hm.expand else (.ok (), hm)

/-- `Get` (pmap.go:180).  The source computes `h := uint32(h32)` - the
provided hash is used raw, without `hashReMap`.  The returned value is
rebuilt from the store, modelling the copy. -/
def Get (c : PMap) (h32 : Nat) (key : Bytes) : Res (Option Bytes) :=
  let h := u32 h32
  match probe c h key with
  | .empty _ => .ok none
  | .found _ off => .ok (some (c.st.val off))
  | .nohit => .hang

/-- `Set` (pmap.go:209), translated branch by branch.  Note: the
source's overwrite branch does not touch `st.deleted`. -/
def Set (c : PMap) (h64 : Nat) (key value : Bytes) : Res PMap :=
  if value.length < 8 then .er "Error: message value len < 8"
  else
    match expandIfNeeded c.hm with
    | (.er m, _) => .er m
    | (.crash, _) => .crash
    | (.hang, _) => .hang
    | (.ok _, hm1) =>
      let c1 : PMap := { c with hm := hm1 }
      let h := hashReMap (u32 h64)
      let tsNew := readLE value 0 8
      match probe c1 h key with
      | .nohit => .hang
      | .empty idx =>
        match c1.st.put key value with
        | .error m => .er m
        | .ok (storeIndex, st1) =>
          let hm2 := (hm1.setHash idx h).setStoreIndex idx storeIndex
          let hm2 := { hm2 with numStoredKeys := hm2.numStoredKeys + 1 }
          .ok { hm := hm2, st := st1,
                checksum := checksumSum c1.checksum (h64 ^^^ tsNew) }
      | .found idx off =>
        let tsOld := c1.st.valTsBits off
        if toI64 tsNew ≤ toI64 tsOld then .ok c1
        else
          match c1.st.put key value with
          | .error m => .er m
          | .ok (storeIndex, st1) =>
            let hm2 := (hm1.setHash idx h).setStoreIndex idx storeIndex
            .ok { hm := hm2, st := st1,
                  checksum := checksumSum (checksumSub c1.checksum (h64 ^^^ tsOld))
                    (h64 ^^^ tsNew) }

/-- `CAS` (pmap.go:284), translated branch by branch, including the
source's `&&` in the empty-bucket test (it errors only when the
expected timestamp is non-zero AND the expected hash differs from
`FNV1a64(nil)`). -/
def CAS (c : PMap) (h64 : Nat) (key value : Bytes) : Res PMap :=
  if value.length < 24 then .er "Error: CAS value len < 16"
  else
    match expandIfNeeded c.hm with
    | (.er m, _) => .er m
    | (.crash, _) => .crash
    | (.hang, _) => .hang
    | (.ok _, hm1) =>
      let c1 : PMap := { c with hm := hm1 }
      let providedTs := readLE value 0 8
      let hv := readLE value 8 8
      let tsNew := readLE value 16 8
      let h := hashReMap (u32 h64)
      match probe c1 h key with
      | .nohit => .hang
      | .empty idx =>
        if toI64 providedTs ≠ 0 ∧ hv ≠ FNV1a64 [] then
          .er "CAS failed: empty pair: non-zero timestamp"
        else
          match c1.st.put key (value.drop 16) with
          | .error m => .er m
          | .ok (storeIndex, st1) =>
            let hm2 := (hm1.setHash idx h).setStoreIndex idx storeIndex
            let hm2 := { hm2 with numStoredKeys := hm2.numStoredKeys + 1 }
            .ok { hm := hm2, st := st1,
                  checksum := checksumSum c1.checksum (h64 ^^^ tsNew) }
      | .found idx off =>
        let tsOld := c1.st.valTsBits off
        if toI64 tsOld ≠ toI64 providedTs then .er "CAS failed: timestamp mismatch"
        else if hv ≠ FNV1a64 ((c1.st.val off).drop 8) then .er "CAS failed: hash mismatch"
        else
          let ck1 := checksumSub c1.checksum (h64 ^^^ tsOld)
          match c1.st.put key (value.drop 16) with
          | .error m => .er m
          | .ok (storeIndex, st1) =>
            let hm2 := (hm1.setHash idx h).setStoreIndex idx storeIndex
            .ok { hm := hm2, st := st1,
                  checksum := checksumSum ck1 (h64 ^^^ tsNew) }

/-- `Del` (pmap.go:355).  No value-length guard and no expansion check in
the source; on a present key `value[:8]` is read from the caller's
slice, which panics when the slice is shorter than 8 bytes. -/
def Del (c : PMap) (h64 : Nat) (key value : Bytes) : Res PMap :=
  let h := hashReMap (u32 h64)
  match probe c h key with
  | .nohit => .hang
  | .empty _ => .ok c
  | .found idx off =>
    let tsOld := c.st.valTsBits off
    if value.length < 8 then .crash
    else
      let tsNew := readLE value 0 8
      if toI64 tsNew < toI64 tsOld then .ok c
      else
        let st1 := { c.st with
          deleted := c.st.deleted + (12 + key.length + c.st.valLen off) }
        let ck := checksumSub c.checksum (h64 ^^^ tsOld)
        let hm2 := c.hm.setHash idx deletedBucket
        match st1.put key [] with
        | .error m => .er m
        | .ok (_, st2) => .ok { hm := hm2, st := st2, checksum := ck }

/-- `restorePair` (pmap.go:85), the replay step of Open.  The key and
value arguments of the source are zero-copy views of the record at
`storeIndex`, so the `value[:8]` reads go through `valTsBits`.  `Open`
ignores this function's error return, and its only error (expansion
failure) leaves the state unchanged, so that case returns the unchanged
state here. -/
def restorePair (c : PMap) (storeIndex : Nat) : Res PMap :=
  match expandIfNeeded c.hm with
  | (.er _, _) => .ok c
  | (.crash, _) => .crash
  | (.hang, _) => .hang
  | (.ok _, hm1) =>
    let c1 : PMap := { c with hm := hm1 }
    let key := c1.st.key storeIndex
    let h64 := FNV1a64 key
    let h := hashReMap (u32 h64)
    let tsNew := c1.st.valTsBits storeIndex
    match probe c1 h key with
    | .nohit => .hang
    | .empty idx =>
      let hm2 := (hm1.setHash idx h).setStoreIndex idx storeIndex
      let hm2 := { hm2 with numStoredKeys := hm2.numStoredKeys + 1 }
      .ok { hm := hm2, st := c1.st,
            checksum := checksumSum c1.checksum (h64 ^^^ tsNew) }
    | .found idx off =>
      let tsOld := c1.st.valTsBits off
      let ck1 := checksumSub c1.checksum (h64 ^^^ tsOld)
      let st1 := { c1.st with
        deleted := c1.st.deleted + (12 + key.length + c1.st.valLen off) }
      if 0 < c1.st.valLen storeIndex then
        let hm2 := (hm1.setHash idx h).setStoreIndex idx storeIndex
        .ok { hm := hm2, st := st1, checksum := checksumSum ck1 (h64 ^^^ tsNew) }
      else
        .ok { hm := hm1.setHash idx deletedBucket, st := st1, checksum := ck1 }

/-- The replay loop of `Open` (pmap.go:63): decode records from offset 0
forward, stop at the first `keyLen == 0`, restore each pair, count
tombstone frames into `deleted`, and track `length`.  Each iteration
advances the offset by at least 12, so the fuel used by `Open` is never
exhausted before the zero header past the log ends the loop. -/
def openLoop (haltAt : Nat) : Nat → PMap → Nat → Res PMap
  | 0, _, _ => .hang
  | fuel + 1, c, index =>
    if haltAt < index + 4 then .crash
    else if c.st.keyLen index = 0 then .ok c
    else
      match restorePair c index with
      | .er m => .er m
      | .crash => .crash
      | .hang => .hang
      | .ok c1 =>
        let c2 :=
          if 0 < c1.st.valLen index then c1
          else { c1 with st := { c1.st with
                   deleted := c1.st.deleted + (12 + c1.st.keyLen index) } }
        let index1 := index + 12 + c2.st.totalLen index
        let c3 := { c2 with st := { c2.st with length := index1 } }
        openLoop haltAt fuel c3 index1

/-- `Open` (pmap.go:57): map the file (its length is the store size) and
replay it from offset 0.  Reading a record header beyond the mapped
region is a fault in Go; the loop marks that `.crash`. -/
def Open (file : Bytes) : Res PMap :=
  let c : PMap :=
    { hm := newHashMap defaultHashMapInitialLog2Size defaultHashMapSizeLimit,
      st := { mem := file, size := file.length, length := 0, deleted := 0 },
      checksum := 0 }
  openLoop file.length (file.length / 12 + 2) c 0

/-- `Close` syncs the memory-mapped region; the on-disk file is the full
`size`-byte region (records followed by zero bytes). -/
def closeFile (c : PMap) : Bytes := c.st.mem

/-- `isPresent` (pmap.go:392): Get on the record's key with the raw low
32 bits of its FNV1a64 hash, then compare the live value's first 8
bytes with the record's (the latter read through the slice capacity,
like `storeValue[0:8]` in the source; the former is a `make`-allocated
copy of exact capacity, so it panics when shorter than 8 bytes). -/
def isPresent (c : PMap) (index : Nat) : Res Bool :=
  let key := c.st.key index
  let h32 := u32 (FNV1a64 key)
  match Get c h32 key with
  | .hang => .hang
  | .crash => .crash
  | .er _ => .ok false
  | .ok none => .ok false
  | .ok (some value) =>
    if value.length < 8 then .crash
    else .ok (decide (readLE value 0 8 = c.st.valTsBits index))

/-- The forward walk of `Iterate` (pmap.go:439) with a callback that
always continues, collecting the yielded (copied) pairs. -/
def iterateLoop (c : PMap) : Nat → Nat → List (Bytes × Bytes) → Res (List (Bytes × Bytes))
  | 0, _, _ => .hang
  | fuel + 1, index, acc =>
    if index < c.st.length then
      match isPresent c index with
      | .hang => .hang
      | .crash => .crash
      | .er m => .er m
      | .ok b =>
        let acc1 := if b then acc ++ [(c.st.key index, c.st.val index)] else acc
        iterateLoop c fuel (index + 12 + c.st.totalLen index) acc1
    else .ok acc

/-- `Iterate` (pmap.go:439) as a list of yielded pairs. -/
def Iterate (c : PMap) : Res (List (Bytes × Bytes)) :=
  iterateLoop c (c.st.length / 12 + 2) 0 []

/-- Go conversion `uint64(i)` of a signed value (two's complement). -/
def u64ofInt (n : Int) : Nat := (n % (2 ^ 64 : Int)).toNat

/-- The backward walk of `BackwardsIterate` (pmap.go:405): visit the
record at `index`, then follow `prev` until it is negative. -/
def backwardsLoop (c : PMap) : Nat → Nat → List (Bytes × Bytes) → Res (List (Bytes × Bytes))
  | 0, _, _ => .hang
  | fuel + 1, index, acc =>
    match isPresent c index with
    | .hang => .hang
    | .crash => .crash
    | .er m => .er m
    | .ok b =>
      let acc1 := if b then acc ++ [(c.st.key index, c.st.val index)] else acc
      let p := c.st.prev index
      if p < 0 then .ok acc1
      else backwardsLoop c fuel (u64ofInt p) acc1

/-- `BackwardsIterate` (pmap.go:405) as a list of yielded pairs.  The
source's first `uint64(prev) < 0` guard is dead code (the comparison is
on an unsigned value), so the walk starts at `prev(length)` whenever
the store is non-empty. -/
def BackwardsIterate (c : PMap) : Res (List (Bytes × Bytes)) :=
  if c.st.length = 0 then .ok []
  else backwardsLoop c (c.st.length / 12 + 2) (u64ofInt (c.st.prev c.st.length)) []

/-- Timestamped value layout of Set/Del: 8 timestamp bytes then payload. -/
def tsv (ts : Nat) (payload : Bytes) : Bytes := leBytes 8 ts ++ payload

/-- Apply `Set` with the key's own FNV1a64 hash, as the spec's workloads
and the repository's callers do. -/
def setK (c : PMap) (key value : Bytes) : Res PMap := Set c (FNV1a64 key) key value

/-- Apply `Del` with the key's own FNV1a64 hash. -/
def delK (c : PMap) (key value : Bytes) : Res PMap := Del c (FNV1a64 key) key value

/-- Apply `CAS` with the key's own FNV1a64 hash. -/
def casK (c : PMap) (key value : Bytes) : Res PMap := CAS c (FNV1a64 key) key value

/-- Get through an operation chain result. -/
def getAfter (r : Res PMap) (h32 : Nat) (key : Bytes) : Res (Option Bytes) :=
  r.bind (fun c => Get c h32 key)

/-- Whether an outcome is a normal (non-error) return. -/
def Res.isOk {α : Type} : Res α → Bool
  | .ok _ => true
  | _ => false

/-- Checksum comparison of two operation chain results. -/
def sameChecksum (r1 r2 : Res PMap) : Res Bool :=
  r1.bind (fun a => r2.bind (fun b => .ok (decide (Checksum a = Checksum b))))

/-!
## Concrete workloads used by the claims
-/

/-- A key whose FNV1a64 hash has low 32 bits 0xFFFFFFFF, the modelled
`emptyBucket` sentinel (`FNV1a64 c1key = 16952150443167842303`). -/
def c1key : Bytes := [118, 221, 83, 24]

def c1val : Bytes := tsv 1000 [88]

def c1state : Res PMap := setK (New 128) c1key c1val

/-- CAS value with a non-zero expected timestamp (7) but the
expected-absent hash `FNV1a64(nil)`: the claim requires this to fail on
an absent key. -/
def c3val : Bytes := leBytes 8 7 ++ leBytes 8 (FNV1a64 []) ++ leBytes 8 100 ++ [104]

def c3state : Res PMap := casK (New 128) [99] c3val

/-- Scenario S2: insert "a" with a 9-byte value, a discarded older
write, then an overwrite with a newer 9-byte value. -/
def c4state : Res PMap :=
  ((setK (New 128) [97] (tsv 1000 [88])).bind
    (fun c => setK c [97] (tsv 500 [89]))).bind
    (fun c => setK c [97] (tsv 2000 [90]))

/-- A successful CAS on the present key after S2 (expected ts 2000,
expected hash of payload "Z"). -/
def c4casState : Res PMap :=
  c4state.bind (fun c =>
    casK c [97] (leBytes 8 2000 ++ leBytes 8 (FNV1a64 [90]) ++ leBytes 8 3000 ++ [87]))

/-- A workload containing a Set on the empty key. -/
def c6state : Res PMap := setK (New 64) [] (tsv 1000 [88])

def c6reopened : Res PMap := c6state.bind (fun c => Open (closeFile c))

def c7setA (c : PMap) : Res PMap := setK c [97] (tsv 1 [88])

def c7setB (c : PMap) : Res PMap := setK c [98] (tsv 2 [89])

def c7delA (c : PMap) : Res PMap := delK c [97] (leBytes 8 3)

def c7perm1 : Res PMap := ((c7setA (New 128)).bind c7setB).bind c7delA

def c7perm2 : Res PMap := ((c7setA (New 128)).bind c7delA).bind c7setB

def c7perm3 : Res PMap := ((c7setB (New 128)).bind c7setA).bind c7delA

def c7perm4 : Res PMap := ((c7delA (New 128)).bind c7setA).bind c7setB

def c7perm5 : Res PMap := ((c7delA (New 128)).bind c7setB).bind c7setA

def c7perm6 : Res PMap := ((c7setB (New 128)).bind c7delA).bind c7setA

def c8val : Bytes := tsv 5 [88]

def c8state : Res PMap := Set (New 128) 4294967295 [97] c8val

def c9key : Bytes := [107]

/-- Live value whose timestamp bit pattern (1 + 2^32) coincides with the
bytes following the tombstone's empty value view: the tombstone's
totalLen tail (1) and the next record's keyLen field (1). -/
def c9val : Bytes := tsv 4294967297 [119]

def c9state : Res PMap :=
  ((setK (New 128) c9key (tsv 10 [118])).bind
    (fun c => delK c c9key (leBytes 8 20))).bind
    (fun c => setK c c9key c9val)

/-- Extract a normal result (default otherwise). -/
def Res.getOr {α : Type} (r : Res α) (d : α) : α :=
  match r with
  | .ok a => a
  | _ => d

/-- A small state with the single key "a" (value ts 1000, payload "X"),
used to instantiate the hypothesis-bearing theorems. -/
def wState : PMap := (setK (New 128) [97] (tsv 1000 [88])).getOr (New 0)

/-- The C9 workload state as a plain PMap (it is a normal result). -/
def c9stateD : PMap := c9state.getOr (New 0)

/-- The record offsets of the forward log walk (same guard and stride
as `iterateLoop` and the Open loop). -/
def recOffsets (st : Store) : Nat → Nat → List Nat
  | 0, _ => []
  | fuel + 1, index =>
    if index < st.length then index :: recOffsets st fuel (index + 12 + st.totalLen index)
    else []

/-- Run the `isPresent` filter over a list of record offsets, collecting
the yielded (copied) pairs; both iterators are instances of this fold
over their respective offset orders. -/
def collectYields (c : PMap) : List Nat → List (Bytes × Bytes) → Res (List (Bytes × Bytes))
  | [], acc => .ok acc
  | o :: rest, acc =>
    match isPresent c o with
    | .hang => .hang
    | .crash => .crash
    | .er m => .er m
    | .ok b =>
      collectYields c rest (if b then acc ++ [(c.st.key o, c.st.val o)] else acc)

/-- The yield of one record offset, when its `isPresent` runs normally. -/
def yieldOf (c : PMap) (o : Nat) : Option (Bytes × Bytes) :=
  match isPresent c o with
  | .ok true => some (c.st.key o, c.st.val o)
  | _ => none

/-- A descending chain of offsets linked by `prev`, ending at a record
whose `prev` is negative (the log start). -/
def backChain (st : Store) : List Nat → Prop
  | [] => True
  | [x] => st.prev x < 0
  | x :: y :: rest => st.prev x = (y : Int) ∧ backChain st (y :: rest)

/-- Structural well-formedness of the log: walking forward from
`index`, each record's trailing totalLen field points back to it
(`prev` of the next boundary is the record), and the walk ends exactly
at `length`. -/
def wfWalk (st : Store) : Nat → Nat → Bool
  | 0, _ => false
  | fuel + 1, index =>
    if index = st.length then true
    else if st.length < index then false
    else
      let nxt := index + 12 + st.totalLen index
      decide (st.prev nxt = (index : Int)) && wfWalk st fuel nxt

/-- The whole log parses into records with consistent reverse links. -/
def wellFormedLog (st : Store) : Bool := wfWalk st (st.length / 12 + 2) 0

/-!
## Lemmas about the probing template
-/

theorem listSet_length {α : Type} (l : List α) (i : Nat) (b : α) :
    (listSet l i b).length = l.length := by
  induction l generalizing i with
  | nil => rfl
  | cons a t ih =>
    cases i with
    | zero => rfl
    | succ n => simp [listSet, ih]

theorem getD_listSet_self {α : Type} (l : List α) (i : Nat) (b d : α)
    (h : i < l.length) : (listSet l i b).getD i d = b := by
  induction l generalizing i with
  | nil => simp at h
  | cons a t ih =>
    cases i with
    | zero => rfl
    | succ n => simpa [listSet] using ih n (by simpa using h)

theorem getD_listSet_ne {α : Type} (l : List α) (i j : Nat) (b d : α)
    (h : j ≠ i) : (listSet l i b).getD j d = l.getD j d := by
  induction l generalizing i j with
  | nil => rfl
  | cons a t ih =>
    cases i with
    | zero =>
      cases j with
      | zero => exact absurd rfl h
      | succ m => rfl
    | succ n =>
      cases j with
      | zero => rfl
      | succ m => simpa [listSet] using ih n m (fun hh => h (by rw [hh]))

/-- The remap never produces a bucket sentinel. -/
theorem hashReMap_ne_sentinels (h : Nat) :
    hashReMap h ≠ emptyBucket ∧ hashReMap h ≠ deletedBucket := by
  by_cases hc : h = emptyBucket ∨ h = deletedBucket
  · rw [hashReMap, if_pos hc]
    rcases hc with hc | hc <;> subst hc <;> exact ⟨by decide, by decide⟩
  · rw [hashReMap, if_neg hc]
    push_neg at hc
    exact hc

theorem capacity_pos (hm : HashMap) : 0 < hm.capacity := by
  have : (0 : Nat) < 2 ^ hm.log2size := by positivity
  exact this

/-- Masking with `sizeMask` is reduction mod the capacity. -/
theorem maskMod (hm : HashMap) (x : Nat) : x &&& hm.sizeMask = x % hm.capacity :=
  Nat.and_pow_two_sub_one_eq_mod x hm.log2size

theorem u32_idem (x : Nat) : u32 (u32 x) = u32 x :=
  Nat.mod_eq_of_lt (Nat.mod_lt x (by decide))

/-- A found probe reports a bucket that holds the probed hash, its own
store index, and a record bearing the probed key. -/
theorem probeLoop_found_spec (c : PMap) (h : Nat) (key : Bytes) :
    ∀ fuel idx j off, probeLoop c h key fuel idx = ProbeRes.found j off →
      c.hm.getHash j = h ∧ c.hm.getStoreIndex j = off ∧ c.st.key off = key := by
  intro fuel
  induction fuel with
  | zero => intro idx j off hh; cases hh
  | succ n ih =>
    intro idx j off hh
    simp only [probeLoop] at hh
    by_cases he : c.hm.getHash idx = emptyBucket
    · rw [if_pos he] at hh; cases hh
    · rw [if_neg he] at hh
      by_cases hmt : c.hm.getHash idx = h ∧ c.st.key (c.hm.getStoreIndex idx) = key
      · rw [if_pos hmt] at hh
        cases hh
        exact ⟨hmt.1, rfl, hmt.2⟩
      · rw [if_neg hmt] at hh
        exact ih _ _ _ hh

/-- A found probe's bucket index stays below the capacity. -/
theorem probeLoop_found_idx_lt (c : PMap) (h : Nat) (key : Bytes) :
    ∀ fuel idx j off, idx < c.hm.capacity →
      probeLoop c h key fuel idx = ProbeRes.found j off → j < c.hm.capacity := by
  intro fuel
  induction fuel with
  | zero => intro idx j off _ hh; cases hh
  | succ n ih =>
    intro idx j off hidx hh
    simp only [probeLoop] at hh
    by_cases he : c.hm.getHash idx = emptyBucket
    · rw [if_pos he] at hh; cases hh
    · rw [if_neg he] at hh
      by_cases hmt : c.hm.getHash idx = h ∧ c.st.key (c.hm.getStoreIndex idx) = key
      · rw [if_pos hmt] at hh
        cases hh
        exact hidx
      · rw [if_neg hmt] at hh
        rw [maskMod] at hh
        exact ih _ _ _ (Nat.mod_lt _ (capacity_pos c.hm)) hh

/-- If no bucket matches the probed hash and key and some bucket is
empty, the probe reports an empty bucket (the `d`-th step from `idx`
reaches the empty bucket within the given fuel). -/
theorem probeLoop_empty_of_nomatch (c : PMap) (h : Nat) (key : Bytes)
    (hnom : ∀ i, i < c.hm.capacity → c.hm.getHash i = h →
      c.st.key (c.hm.getStoreIndex i) ≠ key) :
    ∀ fuel idx d, idx < c.hm.capacity → d < fuel →
      c.hm.getHash ((idx + d) % c.hm.capacity) = emptyBucket →
      ∃ j, probeLoop c h key fuel idx = ProbeRes.empty j := by
  intro fuel
  induction fuel with
  | zero => intro idx d _ hd _; exact absurd hd (Nat.not_lt_zero d)
  | succ n ih =>
    intro idx d hidx hd hemp
    by_cases he : c.hm.getHash idx = emptyBucket
    · exact ⟨idx, by simp only [probeLoop]; rw [if_pos he]⟩
    · have hd0 : d ≠ 0 := by
        intro h0
        subst h0
        rw [Nat.add_zero, Nat.mod_eq_of_lt hidx] at hemp
        exact he hemp
      obtain ⟨d1, rfl⟩ : ∃ d1, d = d1 + 1 := ⟨d - 1, by omega⟩
      have hcap : 0 < c.hm.capacity := capacity_pos c.hm
      have hemp1 : c.hm.getHash (((idx + 1) % c.hm.capacity + d1) % c.hm.capacity)
          = emptyBucket := by
        rw [Nat.mod_add_mod]
        have harr : idx + 1 + d1 = idx + (d1 + 1) := by omega
        rw [harr]
        exact hemp
      obtain ⟨j, hj⟩ := ih ((idx + 1) % c.hm.capacity) d1 (Nat.mod_lt _ hcap)
        (by omega) hemp1
      refine ⟨j, ?_⟩
      simp only [probeLoop]
      rw [if_neg he, if_neg (fun hmt => hnom idx hidx hmt.1 hmt.2), maskMod]
      exact hj

/-- Get answers `none` whenever no bucket matches the raw probed hash
and key, and an empty bucket exists. -/
theorem Get_none_of_nomatch (c : PMap) (h32 : Nat) (key : Bytes)
    (hnom : ∀ i, i < c.hm.capacity → c.hm.getHash i = u32 h32 →
      c.st.key (c.hm.getStoreIndex i) ≠ key)
    (hempty : ∃ j, j < c.hm.capacity ∧ c.hm.getHash j = emptyBucket) :
    Get c h32 key = Res.ok none := by
  obtain ⟨j, hj, hje⟩ := hempty
  have hcap : 0 < c.hm.capacity := capacity_pos c.hm
  have hstart : u32 h32 &&& c.hm.sizeMask = u32 h32 % c.hm.capacity := maskMod c.hm _
  set start := u32 h32 % c.hm.capacity with hsdef
  have hstartlt : start < c.hm.capacity := Nat.mod_lt _ hcap
  have hstartle : start ≤ c.hm.capacity + j := by omega
  have htarget : (start + (c.hm.capacity + j - start) % c.hm.capacity) % c.hm.capacity = j := by
    rw [Nat.add_mod_mod, Nat.add_sub_cancel' hstartle, Nat.add_mod_left,
      Nat.mod_eq_of_lt hj]
  obtain ⟨j1, hj1⟩ := probeLoop_empty_of_nomatch c (u32 h32) key hnom
    c.hm.capacity start ((c.hm.capacity + j - start) % c.hm.capacity) hstartlt
    (Nat.mod_lt _ hcap) (by rw [htarget]; exact hje)
  have hpr : probe c (u32 h32) key = ProbeRes.empty j1 := by
    unfold probe
    rw [hstart]
    exact hj1
  simp only [Get]
  rw [hpr]

/-- C1.  Get-after-Set fails on the code for a key whose 64-bit hash has
low 32 bits equal to a bucket sentinel: `Set` stores the pair under
`hashReMap(uint32(h64))`, but `Get` (pmap.go:181) uses the caller's
`uint32(h64(k))` raw, so the probe starts from the sentinel hash and
reports absence.  The same state queried with the remapped hash returns
the value, isolating the missing `hashReMap` as the cause. -/
theorem c1_get_after_set_missing_remap :
    (c1state.isOk = true)
    ∧ getAfter c1state (u32 (FNV1a64 c1key)) c1key = Res.ok none
    ∧ getAfter c1state (hashReMap (u32 (FNV1a64 c1key))) c1key = Res.ok (some c1val)
    ∧ c1val ≠ [] := by
  decide

/-- C3.  The CAS success condition is violated on the code: on an absent
key, a CAS whose expected timestamp is non-zero (7) but whose expected
hash equals `FNV1a64(nil)` succeeds and installs the record, because the
source's empty-bucket test (pmap.go:306) joins the two expectation
failures with `&&` instead of rejecting on either mismatch. -/
theorem c3_cas_absent_accepts_mismatched_expectation :
    toI64 (readLE c3val 0 8) ≠ 0
    ∧ (c3state.isOk = true)
    ∧ getAfter c3state (u32 (FNV1a64 [99])) [99] = Res.ok (some (tsv 100 [104])) := by
  decide

/-- C4.  Deleted() accounting on overwrite is absent from the code: after
scenario S2 the store reports `Used() = 44` but `Deleted() = 0`, not the
claimed 22 - the source's `Set` overwrite branch (pmap.go:259) and `CAS`
success branch (pmap.go:337) never increment `st.deleted` (unlike `Del`
and the `restorePair` replay, which do). -/
theorem c4_overwrite_deleted_counter_not_incremented :
    c4state.bind (fun c => Res.ok (Used c, Deleted c)) = Res.ok (44, 0)
    ∧ c4casState.bind (fun c => Res.ok (Deleted c)) = Res.ok 0 := by
  decide

/-- C6.  The Open round-trip fails on the code for a workload holding a
Set on the empty key: `Set` accepts it (no guard), the live `Get`
returns the value, but the record's `keyLen` field is 0 - the reserved
end-of-log marker - so replay stops at offset 0 and the re-opened PMap
answers `none` with a different checksum. -/
theorem c6_empty_key_breaks_open_round_trip :
    getAfter c6state (u32 (FNV1a64 [])) [] = Res.ok (some (tsv 1000 [88]))
    ∧ getAfter c6reopened (u32 (FNV1a64 [])) [] = Res.ok none
    ∧ sameChecksum c6state c6reopened = Res.ok false
    ∧ c6state.bind Iterate = Res.ok [([], tsv 1000 [88])]
    ∧ c6reopened.bind Iterate = Res.ok [] := by
  decide

/-- C7 counterexample.  Applying the claim's own three operations in the
order Set("a"), Set("b"), Del("a") versus Del("a"), Set("a"), Set("b")
yields different Checksum() values: Del on an absent key is a silent
no-op (pmap.go:362), so the early Del leaves "a" live. -/
theorem c7_checksum_order_counterexample :
    sameChecksum c7perm1 c7perm4 = Res.ok false := by
  decide

/-- C7 amended.  Among the six permutations, the three in which
Del("a", ts 3) is applied after Set("a", ts 1) - the orders that never
apply Del to an absent key - yield equal Checksum() values. -/
theorem c7_checksum_order_invariance_amended :
    sameChecksum c7perm1 c7perm2 = Res.ok true
    ∧ sameChecksum c7perm1 c7perm3 = Res.ok true := by
  decide

/-- C8.  Get does not share the probing template's hash remap: storing a
pair under the 64-bit hash 0xFFFFFFFF (whose low 32 bits are the
`emptyBucket` sentinel) succeeds, yet `Get(uint32(h64), k)` reports
absence, while the same `Get` with the remapped hash finds the pair.
The source computes `h := uint32(h32)` (pmap.go:181) where Set/Del/CAS
compute `hashReMap(uint32(h64))`. -/
theorem c8_get_probes_unremapped_hash :
    (c8state.isOk = true)
    ∧ getAfter c8state (u32 4294967295) [97] = Res.ok none
    ∧ getAfter c8state (hashReMap (u32 4294967295)) [97] = Res.ok (some c8val) := by
  decide

theorem getD_writeBytes_lt (mem payload : Bytes) (pos q : Nat)
    (hq : q < pos) (hpos : pos ≤ mem.length) :
    (writeBytes mem pos payload).getD q 0 = mem.getD q 0 := by
  unfold writeBytes
  have hlen : (mem.take pos).length = pos := by
    rw [List.length_take]
    omega
  rw [List.append_assoc, List.getD_eq_getElem?_getD,
    List.getElem?_append_left (by rw [hlen]; exact hq),
    List.getElem?_take_of_lt hq, ← List.getD_eq_getElem?_getD]

/-- Reads strictly below the write position are unchanged. -/
theorem readLE_writeBytes_lt (mem payload : Bytes) (pos : Nat)
    (hpos : pos ≤ mem.length) :
    ∀ count q, q + count ≤ pos →
      readLE (writeBytes mem pos payload) q count = readLE mem q count := by
  intro count
  induction count with
  | zero => intro q _; rfl
  | succ n ih =>
    intro q hqc
    simp only [readLE]
    rw [getD_writeBytes_lt mem payload pos q (by omega) hpos, ih (q + 1) (by omega)]

/-- A record key wholly below the write position is unchanged by an
append. -/
theorem key_stable (st st2 : Store) (payload : Bytes) (pos off : Nat)
    (hmem2 : st2.mem = writeBytes st.mem pos payload)
    (hpos : pos ≤ st.mem.length)
    (hbound : off + 8 + st.keyLen off ≤ pos) :
    st2.key off = st.key off := by
  have hkl : st2.keyLen off = st.keyLen off := by
    unfold Store.keyLen
    rw [hmem2]
    exact readLE_writeBytes_lt st.mem payload pos hpos 4 off (by omega)
  unfold Store.key
  rw [hkl, hmem2]
  apply List.map_congr_left
  intro i hi
  rw [List.mem_range] at hi
  exact getD_writeBytes_lt st.mem payload pos _ (by omega) hpos

/-- If Get on a key answers `none`, the iterate walk never yields that
key (records bearing it fail `isPresent`). -/
theorem iterateLoop_no_key (c : PMap) (k : Bytes)
    (hget : Get c (u32 (FNV1a64 k)) k = Res.ok none) :
    ∀ fuel index acc, (∀ p ∈ acc, p.1 ≠ k) →
      ∀ l, iterateLoop c fuel index acc = Res.ok l → ∀ p ∈ l, p.1 ≠ k := by
  intro fuel
  induction fuel with
  | zero =>
    intro index acc hacc l hl
    simp only [iterateLoop] at hl
    cases hl
  | succ n ih =>
    intro index acc hacc l hl
    simp only [iterateLoop] at hl
    by_cases hidx : index < c.st.length
    · rw [if_pos hidx] at hl
      cases hip : isPresent c index with
      | ok b =>
        rw [hip] at hl
        dsimp only at hl
        refine ih _ _ ?_ l hl
        intro p hp
        by_cases hkey : c.st.key index = k
        · have hfalse : isPresent c index = Res.ok false := by
            simp only [isPresent]
            rw [hkey, hget]
          rw [hip] at hfalse
          cases hfalse
          exact hacc p (by simpa using hp)
        · cases b with
          | false => exact hacc p (by simpa using hp)
          | true =>
            rw [if_pos rfl] at hp
            rcases List.mem_append.mp hp with hp | hp
            · exact hacc p hp
            · rw [List.mem_singleton] at hp
              rw [hp]
              exact hkey
      | er m => rw [hip] at hl; cases hl
      | crash => rw [hip] at hl; cases hl
      | hang => rw [hip] at hl; cases hl
    · rw [if_neg hidx] at hl
      cases hl
      exact hacc

/-- C9 counterexample.  Iterate can yield a non-live pair: after
Set(k, ts 10), Del(k, ts 20), Set(k, ts 1 + 2^32), the tombstone record
passes `isPresent` - its `storeValue[0:8]` view reads the totalLen tail
and the next record's keyLen through the slice capacity, and those bytes
coincide with the live timestamp - so Iterate yields the tombstone pair
(k, []) in addition to the live pair, while the live value of k is
`c9val`. -/
theorem c9_iterate_yields_tombstone_counterexample :
    c9state.bind Iterate = Res.ok [(c9key, []), (c9key, c9val)]
    ∧ getAfter c9state (u32 (FNV1a64 c9key)) c9key = Res.ok (some c9val)
    ∧ c9val ≠ [] := by
  decide

/-- C2.  A Set that loses last-write-wins (stored timestamp at least the
provided one, as signed int64 values) returns success, with the store,
the checksum and every counter untouched - the only possible change is
the pending table expansion that the source runs before probing - so
Checksum()/Used()/Deleted() are unchanged and Get still answers the
stored record's value; ties keep the existing record.  Presence is
stated as the source states it: the probe (run on the post-expansion
table) resolves the key.  When no expansion was pending, the state is
literally unchanged.  The Get conclusion assumes the key's low 32 hash
bits are not a bucket sentinel (else Get cannot see the pair at all -
claims C1/C8). -/
theorem c2_lww_discard_preserves_state (c : PMap) (h64 : Nat) (key value : Bytes)
    (hm1 : HashMap) (idx off : Nat)
    (hlen : 8 ≤ value.length)
    (hexp : expandIfNeeded c.hm = (Res.ok (), hm1))
    (hfound : probe { c with hm := hm1 } (hashReMap (u32 h64)) key
      = ProbeRes.found idx off)
    (hts : toI64 (readLE value 0 8) ≤ toI64 (c.st.valTsBits off))
    (hsent : hashReMap (u32 h64) = u32 h64) :
    Set c h64 key value = Res.ok { c with hm := hm1 }
    ∧ Checksum { c with hm := hm1 } = Checksum c
    ∧ Used { c with hm := hm1 } = Used c
    ∧ Deleted { c with hm := hm1 } = Deleted c
    ∧ Get { c with hm := hm1 } (u32 h64) key = Res.ok (some (c.st.val off))
    ∧ (c.hm.numStoredKeys < c.hm.numKeysToExpand → hm1 = c.hm) := by
  refine ⟨?_, rfl, rfl, rfl, ?_, ?_⟩
  · simp only [Set]
    rw [if_neg (by omega), hexp]
    dsimp only
    rw [hfound]
    dsimp only
    rw [if_pos hts]
  · simp only [Get]
    rw [u32_idem, ← hsent, hfound]
  · intro hnoexp
    rw [expandIfNeeded, if_neg (by omega)] at hexp
    exact (congrArg Prod.snd hexp).symm

/-- Witness for C2 at a concrete state: the key "a" holds ts 1000 and a
Set with ts 900 is discarded with the state unchanged. -/
theorem c2_lww_discard_witness :
    Set wState (FNV1a64 [97]) [97] (tsv 900 [89]) = Res.ok { wState with hm := wState.hm }
    ∧ Checksum { wState with hm := wState.hm } = Checksum wState
    ∧ Used { wState with hm := wState.hm } = Used wState
    ∧ Deleted { wState with hm := wState.hm } = Deleted wState
    ∧ Get { wState with hm := wState.hm } (u32 (FNV1a64 [97])) [97]
      = Res.ok (some (wState.st.val 0))
    ∧ (wState.hm.numStoredKeys < wState.hm.numKeysToExpand → wState.hm = wState.hm) :=
  c2_lww_discard_preserves_state wState (FNV1a64 [97]) [97] (tsv 900 [89]) wState.hm 12 0
    (by decide) (by decide) (by decide) (by decide) (by decide)

/-- C10.  Del has no value-length guard: on a present key it reads
`value[:8]` from the caller's slice and panics when the value is
shorter than 8 bytes, while Set rejects values shorter than 8 and CAS
rejects values shorter than 24 with explicit errors. -/
theorem c10_del_missing_length_guard (c : PMap) (h64 : Nat) (key value : Bytes) :
    (∀ idx off, probe c (hashReMap (u32 h64)) key = ProbeRes.found idx off →
      value.length < 8 → Del c h64 key value = Res.crash)
    ∧ (value.length < 8 → Set c h64 key value = Res.er "Error: message value len < 8")
    ∧ (value.length < 24 → CAS c h64 key value = Res.er "Error: CAS value len < 16") := by
  refine ⟨?_, ?_, ?_⟩
  · intro idx off hfound hlen
    simp only [Del]
    rw [hfound]
    dsimp only
    rw [if_pos hlen]
  · intro hlen
    simp only [Set]
    rw [if_pos hlen]
  · intro hlen
    simp only [CAS]
    rw [if_pos hlen]

/-- Witness for C10: a 1-byte value makes Del panic on the present key
"a", while Set and CAS return their length errors. -/
theorem c10_del_missing_length_guard_witness :
    Del wState (FNV1a64 [97]) [97] [1] = Res.crash
    ∧ Set wState (FNV1a64 [97]) [97] [1] = Res.er "Error: message value len < 8"
    ∧ CAS wState (FNV1a64 [97]) [97] [1] = Res.er "Error: CAS value len < 16" :=
  ⟨(c10_del_missing_length_guard wState (FNV1a64 [97]) [97] [1]).1 12 0
      (by decide) (by decide),
   (c10_del_missing_length_guard wState (FNV1a64 [97]) [97] [1]).2.1 (by decide),
   (c10_del_missing_length_guard wState (FNV1a64 [97]) [97] [1]).2.2 (by decide)⟩

theorem getHash_setHash_self (hm : HashMap) (i h : Nat) (hlt : i < hm.buckets.length) :
    (hm.setHash i h).getHash i = h := by
  simp only [HashMap.getHash, HashMap.setHash]
  rw [getD_listSet_self _ _ _ _ hlt]

theorem getHash_setHash_ne (hm : HashMap) (i j h : Nat) (hne : j ≠ i) :
    (hm.setHash i h).getHash j = hm.getHash j := by
  simp only [HashMap.getHash, HashMap.setHash]
  rw [getD_listSet_ne _ _ _ _ _ hne]

theorem getStoreIndex_setHash_ne (hm : HashMap) (i j h : Nat) (hne : j ≠ i) :
    (hm.setHash i h).getStoreIndex j = hm.getStoreIndex j := by
  simp only [HashMap.getStoreIndex, HashMap.setHash]
  rw [getD_listSet_ne _ _ _ _ _ hne]

/-- After tombstoning bucket `idx` and appending a record at the old log
end, Get with a raw non-sentinel hash answers none when no other bucket
resolves the key. -/
theorem Get_none_after_tombstone (c S : PMap) (idx hr : Nat) (key payload : Bytes)
    (hShm : S.hm = c.hm.setHash idx deletedBucket)
    (hSmem : S.st.mem = writeBytes c.st.mem c.st.length payload)
    (hr32 : hr < 2 ^ 32)
    (hre : hr ≠ emptyBucket) (hrd : hr ≠ deletedBucket)
    (hlenle : c.st.length ≤ c.st.mem.length)
    (hbl : c.hm.buckets.length = c.hm.capacity)
    (hempty : ∃ j, j < c.hm.capacity ∧ c.hm.getHash j = emptyBucket)
    (hidxe : c.hm.getHash idx ≠ emptyBucket)
    (huniq : ∀ i, i < c.hm.capacity → i ≠ idx → c.hm.getHash i = hr →
      c.st.key (c.hm.getStoreIndex i) ≠ key)
    (hoffs : ∀ i, i < c.hm.capacity → c.hm.getHash i ≠ emptyBucket →
      c.hm.getHash i ≠ deletedBucket →
      c.hm.getStoreIndex i + 8 + c.st.keyLen (c.hm.getStoreIndex i) ≤ c.st.length) :
    Get S hr key = Res.ok none := by
  have hu : u32 hr = hr := Nat.mod_eq_of_lt hr32
  have hcapS : S.hm.capacity = c.hm.capacity := by rw [hShm]; rfl
  apply Get_none_of_nomatch
  · intro i hi hhashi
    rw [hcapS] at hi
    rw [hShm, hu] at hhashi
    have hie : i ≠ idx := by
      intro hie
      subst hie
      rw [getHash_setHash_self _ _ _ (by rw [hbl]; exact hi)] at hhashi
      exact hrd hhashi.symm
    rw [getHash_setHash_ne _ _ _ _ hie] at hhashi
    rw [hShm, getStoreIndex_setHash_ne _ _ _ _ hie]
    have hkeyS : S.st.key (c.hm.getStoreIndex i) = c.st.key (c.hm.getStoreIndex i) :=
      key_stable c.st S.st payload c.st.length _ hSmem hlenle
        (hoffs i hi (by rw [hhashi]; exact hre) (by rw [hhashi]; exact hrd))
    rw [hkeyS]
    exact huniq i hi hie hhashi
  · obtain ⟨j, hj, hje⟩ := hempty
    refine ⟨j, by rw [hcapS]; exact hj, ?_⟩
    have hjne : j ≠ idx := by
      intro hjidx
      subst hjidx
      exact hidxe hje
    rw [hShm, getHash_setHash_ne _ _ _ _ hjne]
    exact hje

/-- C5.  Del semantics, in the three cases of the claim.  Absent key:
success with the state unchanged (idempotent).  Present key, strictly
older delete timestamp: silently discarded.  Present key, timestamp at
least the stored one (ties delete): `deleted` grows by 12 + keyLen +
oldValLen, the bucket becomes `deletedBucket`, a tombstone record (the
key with an empty value) is appended at the old end of the log, Get
answers none, and Iterate never yields the key.  The delete case
assumes: room for the tombstone; the mapped region is the store size;
the call passes the key's own hash, whose low 32 bits are not a
sentinel; the bucket list has `capacity` entries, some bucket is empty,
no other bucket resolves to this key, and live buckets reference
records inside the log (all facts maintained by the operations). -/
theorem c5_del_semantics (c : PMap) (h64 : Nat) (key value : Bytes) :
    (∀ idx, probe c (hashReMap (u32 h64)) key = ProbeRes.empty idx →
      Del c h64 key value = Res.ok c)
    ∧ (∀ idx off, probe c (hashReMap (u32 h64)) key = ProbeRes.found idx off →
      8 ≤ value.length →
      toI64 (readLE value 0 8) < toI64 (c.st.valTsBits off) →
      Del c h64 key value = Res.ok c)
    ∧ (∀ idx off, probe c (hashReMap (u32 h64)) key = ProbeRes.found idx off →
      8 ≤ value.length →
      toI64 (c.st.valTsBits off) ≤ toI64 (readLE value 0 8) →
      c.st.length + 12 + key.length ≤ c.st.size →
      c.st.mem.length = c.st.size →
      h64 = FNV1a64 key →
      hashReMap (u32 h64) = u32 h64 →
      c.hm.buckets.length = c.hm.capacity →
      (∃ j, j < c.hm.capacity ∧ c.hm.getHash j = emptyBucket) →
      (∀ i, i < c.hm.capacity → i ≠ idx → c.hm.getHash i = u32 h64 →
        c.st.key (c.hm.getStoreIndex i) ≠ key) →
      (∀ i, i < c.hm.capacity → c.hm.getHash i ≠ emptyBucket →
        c.hm.getHash i ≠ deletedBucket →
        c.hm.getStoreIndex i + 8 + c.st.keyLen (c.hm.getStoreIndex i) ≤ c.st.length) →
      ∃ c2, Del c h64 key value = Res.ok c2
        ∧ Deleted c2 = Deleted c + (12 + key.length + c.st.valLen off)
        ∧ c2.hm.getHash idx = deletedBucket
        ∧ Used c2 = Used c + (12 + key.length)
        ∧ c2.st.mem = writeBytes c.st.mem c.st.length
            (leBytes 4 key.length ++ leBytes 4 0 ++ key ++ leBytes 4 key.length)
        ∧ Get c2 (u32 h64) key = Res.ok none
        ∧ (∀ l, Iterate c2 = Res.ok l → ∀ p ∈ l, p.1 ≠ key)) := by
  refine ⟨?_, ?_, ?_⟩
  · intro idx hemp
    simp only [Del]
    rw [hemp]
  · intro idx off hfound hlen hts
    simp only [Del]
    rw [hfound]
    dsimp only
    rw [if_neg (by omega), if_pos hts]
  · intro idx off hfound hlen hts hspace hmem hh64 hsent hbl hempty huniq hoffs
    have hcap : 0 < c.hm.capacity := capacity_pos c.hm
    have hfound2 : probeLoop c (hashReMap (u32 h64)) key c.hm.capacity
        (hashReMap (u32 h64) &&& c.hm.sizeMask) = ProbeRes.found idx off := hfound
    have hstartlt : hashReMap (u32 h64) &&& c.hm.sizeMask < c.hm.capacity := by
      rw [maskMod]
      exact Nat.mod_lt _ hcap
    have hidxlt : idx < c.hm.capacity :=
      probeLoop_found_idx_lt c _ key _ _ idx off hstartlt hfound2
    obtain ⟨hhash, hsi, hkey⟩ := probeLoop_found_spec c _ key _ _ idx off hfound2
    have hlenle : c.st.length ≤ c.st.mem.length := by omega
    have hremap := hashReMap_ne_sentinels (u32 h64)
    have hdel : Del c h64 key value = Res.ok
        { hm := c.hm.setHash idx deletedBucket,
          st := { mem := writeBytes c.st.mem c.st.length
                    (leBytes 4 key.length ++ leBytes 4 0 ++ key ++ leBytes 4 key.length),
                  size := c.st.size,
                  length := c.st.length + 12 + key.length,
                  deleted := c.st.deleted + (12 + key.length + c.st.valLen off) },
          checksum := checksumSub c.checksum (h64 ^^^ c.st.valTsBits off) } := by
      simp only [Del]
      rw [hfound]
      dsimp only
      rw [if_neg (by omega), if_neg (Int.not_lt.mpr hts)]
      simp only [Store.put, List.length_nil, List.append_nil, Nat.add_zero]
      rw [if_neg (by omega)]
    have hget : Get
        ({ hm := c.hm.setHash idx deletedBucket,
           st := { mem := writeBytes c.st.mem c.st.length
                     (leBytes 4 key.length ++ leBytes 4 0 ++ key ++ leBytes 4 key.length),
                   size := c.st.size,
                   length := c.st.length + 12 + key.length,
                   deleted := c.st.deleted + (12 + key.length + c.st.valLen off) },
           checksum := checksumSub c.checksum (h64 ^^^ c.st.valTsBits off) } : PMap)
        (u32 h64) key = Res.ok none := by
      refine Get_none_after_tombstone c _ idx (u32 h64) key _ rfl rfl
        (Nat.mod_lt _ (by decide)) (hsent ▸ hremap.1) (hsent ▸ hremap.2)
        hlenle hbl hempty ?_ huniq hoffs
      rw [hhash]
      exact hremap.1
    refine ⟨_, hdel, rfl, ?_, ?_, rfl, hget, ?_⟩
    · exact getHash_setHash_self _ _ _ (by rw [hbl]; exact hidxlt)
    · show c.st.length + 12 + key.length = Used c + (12 + key.length)
      simp only [Used]
      omega
    · intro l hl p hp
      simp only [Iterate] at hl
      exact iterateLoop_no_key _ key (by rw [← hh64]; exact hget) _ 0 []
        (by simp) l hl p hp


/-- Witness for C5 on the concrete state holding only the key "a" at
ts 1000: Del of the absent key "b" is a no-op; Del of "a" at ts 500 is
discarded; Del of "a" at ts 2000 tombstones the bucket, appends the
tombstone record, grows `deleted` by 22, and hides "a" from Get and
Iterate. -/
theorem c5_del_semantics_witness :
    Del wState (FNV1a64 [98]) [98] (tsv 5 []) = Res.ok wState
    ∧ Del wState (FNV1a64 [97]) [97] (tsv 500 []) = Res.ok wState
    ∧ ∃ c2, Del wState (FNV1a64 [97]) [97] (tsv 2000 []) = Res.ok c2
        ∧ Deleted c2 = Deleted wState + (12 + ([97] : Bytes).length + wState.st.valLen 0)
        ∧ c2.hm.getHash 12 = deletedBucket
        ∧ Used c2 = Used wState + (12 + ([97] : Bytes).length)
        ∧ c2.st.mem = writeBytes wState.st.mem wState.st.length
            (leBytes 4 ([97] : Bytes).length ++ leBytes 4 0 ++ [97]
              ++ leBytes 4 ([97] : Bytes).length)
        ∧ Get c2 (u32 (FNV1a64 [97])) [97] = Res.ok none
        ∧ (∀ l, Iterate c2 = Res.ok l → ∀ p ∈ l, p.1 ≠ [97]) :=
  ⟨(c5_del_semantics wState (FNV1a64 [98]) [98] (tsv 5 [])).1 5 (by decide),
   (c5_del_semantics wState (FNV1a64 [97]) [97] (tsv 500 [])).2.1 12 0
     (by decide) (by decide) (by decide),
   (c5_del_semantics wState (FNV1a64 [97]) [97] (tsv 2000 [])).2.2 12 0
     (by decide) (by decide) (by decide) (by decide) (by decide) rfl
     (by decide) (by decide) ⟨0, by decide, by decide⟩ (by decide) (by decide)⟩

theorem recOffsets_lt (st : Store) :
    ∀ fuel index o, o ∈ recOffsets st fuel index → o < st.length := by
  intro fuel
  induction fuel with
  | zero => intro index o ho; simp [recOffsets] at ho
  | succ f ih =>
    intro index o ho
    simp only [recOffsets] at ho
    by_cases hidx : index < st.length
    · rw [if_pos hidx] at ho
      rcases List.mem_cons.mp ho with ho | ho
      · rw [ho]; exact hidx
      · exact ih _ o ho
    · rw [if_neg hidx] at ho
      simp at ho

/-- A well-formed walk covers exactly the bytes up to `length`, so the
record count is bounded by `length / 12`. -/
theorem wfWalk_bound (st : Store) :
    ∀ fuel index, wfWalk st fuel index = true →
      index + 12 * (recOffsets st fuel index).length ≤ st.length := by
  intro fuel
  induction fuel with
  | zero => intro index hw; simp [wfWalk] at hw
  | succ f ih =>
    intro index hw
    simp only [wfWalk] at hw
    by_cases h1 : index = st.length
    · simp only [recOffsets, if_neg (by omega : ¬ index < st.length)]
      simp [h1]
    · rw [if_neg h1] at hw
      by_cases h2 : st.length < index
      · rw [if_pos h2] at hw; cases hw
      · rw [if_neg h2] at hw
        have hidx : index < st.length := by omega
        rw [Bool.and_eq_true] at hw
        have hrec := ih (index + 12 + st.totalLen index) hw.2
        simp only [recOffsets, if_pos hidx, List.length_cons]
        omega

/-- A well-formed walk yields reverse links: every next boundary's
`prev` points back, down to the given tail chain; the log end links to
the last record. -/
theorem wfWalk_backChain (st : Store) :
    ∀ fuel index tail, wfWalk st fuel index = true →
      backChain st (index :: tail) →
      backChain st (st.length :: ((recOffsets st fuel index).reverse ++ tail)) := by
  intro fuel
  induction fuel with
  | zero => intro index tail hw; simp [wfWalk] at hw
  | succ f ih =>
    intro index tail hw hbc
    simp only [wfWalk] at hw
    by_cases h1 : index = st.length
    · simp only [recOffsets, if_neg (by omega : ¬ index < st.length)]
      simpa [h1] using hbc
    · rw [if_neg h1] at hw
      by_cases h2 : st.length < index
      · rw [if_pos h2] at hw; cases hw
      · rw [if_neg h2] at hw
        have hidx : index < st.length := by omega
        rw [Bool.and_eq_true, decide_eq_true_eq] at hw
        have h3 := ih (index + 12 + st.totalLen index) (index :: tail) hw.2 ⟨hw.1, hbc⟩
        simp only [recOffsets, if_pos hidx, List.reverse_cons, List.append_assoc,
          List.singleton_append]
        exact h3

/-- A normal collect run is the accumulated filterMap of the per-record
yields, and every visited record ran `isPresent` normally. -/
theorem collect_spec (c : PMap) :
    ∀ os acc l, collectYields c os acc = Res.ok l →
      l = acc ++ os.filterMap (yieldOf c) ∧ ∀ o ∈ os, (isPresent c o).isOk = true := by
  intro os
  induction os with
  | nil =>
    intro acc l hl
    simp only [collectYields] at hl
    cases hl
    simp
  | cons o rest ih =>
    intro acc l hl
    simp only [collectYields] at hl
    cases hip : isPresent c o with
    | ok b =>
      rw [hip] at hl
      obtain ⟨hl1, hl2⟩ := ih _ l hl
      constructor
      · rw [hl1, List.filterMap_cons]
        cases b with
        | true => simp [yieldOf, hip]
        | false => simp [yieldOf, hip]
      · intro o2 ho2
        rcases List.mem_cons.mp ho2 with ho2 | ho2
        · rw [ho2, hip]; rfl
        · exact hl2 o2 ho2
    | er m => rw [hip] at hl; cases hl
    | crash => rw [hip] at hl; cases hl
    | hang => rw [hip] at hl; cases hl

/-- When every record's `isPresent` runs normally, the collect run is
normal and equals the accumulated filterMap of yields. -/
theorem collect_of_ok (c : PMap) :
    ∀ os acc, (∀ o ∈ os, (isPresent c o).isOk = true) →
      collectYields c os acc = Res.ok (acc ++ os.filterMap (yieldOf c)) := by
  intro os
  induction os with
  | nil => intro acc _; simp [collectYields]
  | cons o rest ih =>
    intro acc hok
    simp only [collectYields]
    cases hip : isPresent c o with
    | ok b =>
      dsimp only
      rw [ih _ (fun o2 ho2 => hok o2 (List.mem_cons_of_mem o ho2)), List.filterMap_cons]
      cases b with
      | true => simp [yieldOf, hip]
      | false => simp [yieldOf, hip]
    | er m => have := hok o (List.mem_cons_self o rest); rw [hip] at this; cases this
    | crash => have := hok o (List.mem_cons_self o rest); rw [hip] at this; cases this
    | hang => have := hok o (List.mem_cons_self o rest); rw [hip] at this; cases this

theorem u64ofInt_natCast (y : Nat) (h : y < 2 ^ 64) : u64ofInt (y : Int) = y := by
  unfold u64ofInt
  have h2 : ((2 : Int) ^ 64) = ((2 ^ 64 : Nat) : Int) := by norm_num
  rw [h2]
  omega

/-- The backward walk along a `prev` chain is the collect run over the
chain's offsets. -/
theorem backwardsLoop_eq_collect (c : PMap) :
    ∀ rest x fuel acc, backChain c.st (x :: rest) →
      (∀ o ∈ x :: rest, o < 2 ^ 64) →
      rest.length < fuel →
      backwardsLoop c fuel x acc = collectYields c (x :: rest) acc := by
  intro rest
  induction rest with
  | nil =>
    intro x fuel acc hbc hb hf
    obtain ⟨f, rfl⟩ : ∃ f, fuel = f + 1 := ⟨fuel - 1, by omega⟩
    simp only [backwardsLoop, collectYields]
    cases hip : isPresent c x with
    | ok b =>
      dsimp only
      rw [if_pos (show c.st.prev x < 0 from hbc)]
    | er m => rfl
    | crash => rfl
    | hang => rfl
  | cons y rest2 ih =>
    intro x fuel acc hbc hb hf
    obtain ⟨f, rfl⟩ : ∃ f, fuel = f + 1 := ⟨fuel - 1, by omega⟩
    obtain ⟨hprev, hbc2⟩ := hbc
    simp only [backwardsLoop, collectYields]
    cases hip : isPresent c x with
    | ok b =>
      dsimp only
      rw [hprev, if_neg (by omega : ¬ (y : Int) < 0),
        u64ofInt_natCast y (hb y (List.mem_cons_of_mem x (List.mem_cons_self y rest2)))]
      exact ih y f _ hbc2
        (fun o ho => hb o (List.mem_cons_of_mem x ho)) (by simpa using hf)
    | er m => rfl
    | crash => rfl
    | hang => rfl

/-- The forward iterate walk is the collect run over the forward record
offsets (the fuel always suffices: each record advances at least 12
bytes). -/
theorem iterateLoop_eq_collect (c : PMap) :
    ∀ fuel index acc, 0 < fuel → c.st.length + 12 ≤ index + 12 * fuel →
      iterateLoop c fuel index acc = collectYields c (recOffsets c.st fuel index) acc := by
  intro fuel
  induction fuel with
  | zero => intro index acc h0; omega
  | succ f ih =>
    intro index acc _ hbound
    simp only [iterateLoop, recOffsets]
    by_cases hidx : index < c.st.length
    · rw [if_pos hidx, if_pos hidx]
      simp only [collectYields]
      cases hip : isPresent c index with
      | ok b =>
        dsimp only
        exact ih _ _ (by omega) (by omega)
      | er m => rfl
      | crash => rfl
      | hang => rfl
    · rw [if_neg hidx, if_neg hidx]
      rfl

/-- C9 amended.  On a well-formed log, whenever Iterate runs normally,
BackwardsIterate runs normally and yields exactly the reversed list:
the two iterators agree as multisets and in reverse log order.  (The
claim's further assertion that this common yield equals the live set is
refuted by the tombstone counterexample.) -/
theorem c9_iterate_backwards_reverse (c : PMap) (l : List (Bytes × Bytes))
    (hwf : wellFormedLog c.st = true)
    (hlen64 : c.st.length < 2 ^ 64)
    (hiter : Iterate c = Res.ok l) :
    BackwardsIterate c = Res.ok l.reverse := by
  have hIt : Iterate c
      = collectYields c (recOffsets c.st (c.st.length / 12 + 2) 0) [] := by
    simp only [Iterate]
    exact iterateLoop_eq_collect c (c.st.length / 12 + 2) 0 [] (by omega) (by omega)
  rw [hIt] at hiter
  obtain ⟨hl, hok⟩ := collect_spec c _ [] l hiter
  rw [List.nil_append] at hl
  by_cases h0 : c.st.length = 0
  · have hoffs0 : recOffsets c.st (c.st.length / 12 + 2) 0 = [] := by
      show recOffsets c.st (c.st.length / 12 + 1 + 1) 0 = []
      simp only [recOffsets]
      rw [if_neg (by omega)]
    rw [hoffs0] at hl
    simp only [List.filterMap_nil] at hl
    subst hl
    simp only [BackwardsIterate]
    rw [if_pos h0]
    rfl
  · have hbcTop : backChain c.st
        (c.st.length :: (recOffsets c.st (c.st.length / 12 + 2) 0).reverse ++ []) := by
      refine wfWalk_backChain c.st (c.st.length / 12 + 2) 0 [] hwf ?_
      show c.st.prev 0 < 0
      simp [Store.prev]
    rw [List.append_nil] at hbcTop
    have hne : recOffsets c.st (c.st.length / 12 + 2) 0 ≠ [] := by
      show recOffsets c.st (c.st.length / 12 + 1 + 1) 0 ≠ []
      simp only [recOffsets]
      rw [if_pos (by omega)]
      simp
    obtain ⟨x, tl, hxtl⟩ : ∃ x tl,
        (recOffsets c.st (c.st.length / 12 + 2) 0).reverse = x :: tl := by
      cases hh : (recOffsets c.st (c.st.length / 12 + 2) 0).reverse with
      | nil => exact absurd (by simpa using congrArg List.reverse hh) hne
      | cons a b => exact ⟨a, b, rfl⟩
    rw [hxtl] at hbcTop
    obtain ⟨hprevlen, hbc⟩ := hbcTop
    have hltrev : ∀ o ∈ x :: tl, o < 2 ^ 64 := by
      intro o ho
      have : o ∈ recOffsets c.st (c.st.length / 12 + 2) 0 :=
        List.mem_reverse.mp (hxtl ▸ ho)
      exact lt_trans (recOffsets_lt c.st _ _ o this) hlen64
    have hbound := wfWalk_bound c.st (c.st.length / 12 + 2) 0 hwf
    have hlenrev : tl.length < c.st.length / 12 + 2 := by
      have hlr : (x :: tl).length = (recOffsets c.st (c.st.length / 12 + 2) 0).length := by
        rw [← hxtl, List.length_reverse]
      simp only [List.length_cons] at hlr
      omega
    simp only [BackwardsIterate]
    rw [if_neg h0, hprevlen,
      u64ofInt_natCast x (hltrev x (List.mem_cons_self x tl)),
      backwardsLoop_eq_collect c tl x _ [] hbc hltrev hlenrev, ← hxtl,
      collect_of_ok c _ [] (fun o ho => hok o (List.mem_reverse.mp ho)),
      List.nil_append, List.filterMap_reverse, ← hl]

/-- Witness for the amended C9 on the tombstone-coincidence state: the
backward yield is the reverse of the forward yield (both include the
coincidental tombstone pair). -/
theorem c9_iterate_backwards_reverse_witness :
    BackwardsIterate c9stateD = Res.ok ([(c9key, []), (c9key, c9val)].reverse) :=
  c9_iterate_backwards_reverse c9stateD [(c9key, []), (c9key, c9val)]
    (by decide) (by decide) (by decide)

end PmapCore
